import Mathlib

/-!
Verification of `mnist_uncertainty.py` (Bayesian uncertainty for an MNIST
0/1 classifier).  Each definition below is a shallow embedding of a piece
of the Python source; scalar quantities that the program manipulates with
exact comparisons (fractions of counts, thresholds, optimizer states) are
modelled over `ℚ`, while quantities built from `exp`/`log` (softmax,
entropy, KL divergence) are modelled over `ℝ`.
-/

namespace MnistUncertainty

/-! ### Threshold sweep (source lines 317-333)

`test_entropy_deterministic` is a dict keyed by the labels '0'..'9'; we
model it as `Fin 10 → List ℚ`.  For a threshold `t` the code computes
`(np.array(scores) < t).mean()` for the in-distribution labels and
`(np.array(scores) >= t).mean()` for the others. -/

/-- Fraction of recorded scores strictly below the threshold:
`(np.array(xs) < t).mean()`. -/
def fracLt (xs : List ℚ) (t : ℚ) : ℚ :=
  ((xs.filter (fun x => decide (x < t))).length : ℚ) / (xs.length : ℚ)

/-- Fraction of recorded scores at or above the threshold:
`(np.array(xs) >= t).mean()`. -/
def fracGe (xs : List ℚ) (t : ℚ) : ℚ :=
  ((xs.filter (fun x => decide (t ≤ x))).length : ℚ) / (xs.length : ℚ)

/-- The value `in_acc`: sum over the labels '0' and '1' of the below-threshold
fractions, divided by 2 (source lines 320-327). -/
def inAcc (r : Fin 10 → List ℚ) (t : ℚ) : ℚ :=
  (∑ l : Fin 10, if l.val ≤ 1 then fracLt (r l) t else 0) / 2

/-- The value `out_acc`: sum over the labels '2'..'9' of the at-or-above-threshold
fractions, divided by 8 (source lines 321-328). -/
def outAcc (r : Fin 10 → List ℚ) (t : ℚ) : ℚ :=
  (∑ l : Fin 10, if l.val ≤ 1 then 0 else fracGe (r l) t) / 8

/-- The value `bal_acc = (in_acc + out_acc)/2.0` (source line 329). -/
def balAcc (r : Fin 10 → List ℚ) (t : ℚ) : ℚ :=
  (inAcc r t + outAcc r t) / 2

/-- The 1000 evenly spaced thresholds `np.linspace(0, 1.0, 1000)`,
i.e. `i/999` for `i = 0,...,999` (source line 317). -/
def thresholds1000 : List ℚ :=
  (List.range 1000).map (fun i : ℕ => (i : ℚ) / 999)

/-- The threshold curve `acc`: the dict maps each threshold to its
balanced accuracy, in insertion (= increasing threshold) order
(source lines 318-330). -/
def sweepRecord (r : Fin 10 → List ℚ) : List (ℚ × ℚ) :=
  thresholds1000.map (fun t => (t, balAcc r t))

/-- One comparison step of the maximum selection: keep the earlier entry
unless the later one has strictly larger balanced accuracy. -/
def better (b x : ℚ × ℚ) : ℚ × ℚ :=
  if b.2 < x.2 then x else b

/-- The selection `sorted(acc.items(), key=itemgetter(1), reverse=True)[0]` (source
lines 332-333): Python's sort is stable, so the head of the descending
sort is the first entry (in insertion order) attaining the maximal
balanced accuracy; `selectBest` computes exactly that entry. -/
def selectBest : List (ℚ × ℚ) → Option (ℚ × ℚ)
  | [] => none
  | e :: rest => some (rest.foldl better e)

/-- Every label of the uncertainty record has at least one recorded
score (true of the real record, whose lists are filled from the test
set; without it numpy's mean of an empty array is undefined). -/
def allNonempty (r : Fin 10 → List ℚ) : Prop :=
  ∀ l : Fin 10, r l ≠ []

/-- The hypothesis of claim C3: every label-0/1 score is below 0.1 and
every label-2..9 score is above 0.9. -/
def sepHypothesis (r : Fin 10 → List ℚ) : Prop :=
  ∀ l : Fin 10,
    (l.val ≤ 1 → ∀ x ∈ r l, x < 1 / 10) ∧ (1 < l.val → ∀ x ∈ r l, 9 / 10 < x)

/-- A concrete uncertainty record satisfying C3's hypothesis: the
in-distribution labels recorded a single score 0, the others a single
score 0.95. -/
def exampleRecord : Fin 10 → List ℚ :=
  fun l => if l.val ≤ 1 then [0] else [19 / 20]

/-! ### Optimizers (source lines 116-124 and 177)

The custom `sgd` of the variational branch keeps, per parameter, a
velocity `acc` initialised to `p.get_value() * 0.` and updates
`acc_new = acc*momentum + (1.0-momentum)*g`, `p_new = p - acc_new*lr`.
The update is elementwise, so one scalar parameter/velocity pair
captures it.  States are `(parameter, velocity)` pairs. -/

/-- One step of the repository's custom `sgd` (source lines 119-123). -/
def sgdStep (lr m : ℚ) (pv : ℚ × ℚ) (g : ℚ) : ℚ × ℚ :=
  (pv.1 - (pv.2 * m + (1 - m) * g) * lr, pv.2 * m + (1 - m) * g)

/-- The update rule stated by the spec: velocity ← momentum·velocity +
(1−momentum)·gradient; parameter ← parameter − learning_rate·velocity. -/
def specMomentumStep (lr m : ℚ) (pv : ℚ × ℚ) (g : ℚ) : ℚ × ℚ :=
  (pv.1 - lr * (m * pv.2 + (1 - m) * g), m * pv.2 + (1 - m) * g)

/-- Modelled from the Lasagne library documentation (the dropout branch
calls `lasagne.updates.momentum` at source line 177; the library source
is not part of this repository): velocity ← momentum·velocity −
learning_rate·gradient; parameter ← parameter + velocity, velocity
initialised to zero. -/
def lasagneMomentumStep (lr m : ℚ) (pv : ℚ × ℚ) (g : ℚ) : ℚ × ℚ :=
  (pv.1 + (m * pv.2 - lr * g), m * pv.2 - lr * g)

/-- Running the custom `sgd` over a sequence of minibatch gradients; the
velocity component of the state is created once (zero) and threaded
through every step. -/
def sgdRun (lr m : ℚ) (pv : ℚ × ℚ) (gs : List ℚ) : ℚ × ℚ :=
  gs.foldl (sgdStep lr m) pv

/-! ### Dataset partitioner (source lines 87-99)

`X[np.where(mask)]` with a boolean mask computed from the label array
keeps, in order, the rows whose mask entry is true. -/

/-- Boolean-mask row selection, `X[np.where(mask)]`. -/
def selectRows {α : Type} (xs : List α) (mask : List Bool) : List α :=
  (xs.zip mask).filterMap (fun p => if p.2 then some p.1 else none)

/-- The mask `np.logical_or(y == 0, y == 1)` (source lines 90-91, 96-97). -/
def inMask (ys : List ℕ) : List Bool :=
  ys.map (fun l => l == 0 || l == 1)

/-- The mask `np.logical_and(y != 0, y != 1)` (source lines 87-88). -/
def outMask (ys : List ℕ) : List Bool :=
  ys.map (fun l => !(l == 0) && !(l == 1))

/-- The eight arrays returned by `load_dataset` (source line 99). -/
structure DatasetSplit (α : Type) where
  X_train : List α
  y_train : List ℕ
  X_test : List α
  y_test : List ℕ
  X_outside : List α
  y_outside : List ℕ
  X_test_all : List α
  y_test_all : List ℕ

/-- The partitioning part of `load_dataset` (source lines 87-99),
applied to raw (images, labels) train and test sources. -/
def load_dataset {α : Type} (Xtr : List α) (ytr : List ℕ)
    (Xte : List α) (yte : List ℕ) : DatasetSplit α :=
  { X_train := selectRows Xtr (inMask ytr)
    y_train := selectRows ytr (inMask ytr)
    X_test := selectRows Xte (inMask yte)
    y_test := selectRows yte (inMask yte)
    X_outside := selectRows Xtr (outMask ytr)
    y_outside := selectRows ytr (outMask ytr)
    X_test_all := Xte
    y_test_all := yte }

/-- The properties claim C5 asserts of the partitioner's output:
in-train ++ out-train is a permutation of the original train set (as
lists of (image,label) pairs), each filtered subset is an
order-preserving sublist of its source (row correspondence and original
order), and the label constraints hold. -/
def partitionProps {α : Type} (Xtr : List α) (ytr : List ℕ)
    (Xte : List α) (yte : List ℕ) : Prop :=
  ((load_dataset Xtr ytr Xte yte).X_train.zip
        (load_dataset Xtr ytr Xte yte).y_train ++
      (load_dataset Xtr ytr Xte yte).X_outside.zip
        (load_dataset Xtr ytr Xte yte).y_outside).Perm (Xtr.zip ytr) ∧
  ((load_dataset Xtr ytr Xte yte).X_train.zip
      (load_dataset Xtr ytr Xte yte).y_train).Sublist (Xtr.zip ytr) ∧
  ((load_dataset Xtr ytr Xte yte).X_outside.zip
      (load_dataset Xtr ytr Xte yte).y_outside).Sublist (Xtr.zip ytr) ∧
  ((load_dataset Xtr ytr Xte yte).X_test.zip
      (load_dataset Xtr ytr Xte yte).y_test).Sublist
    ((load_dataset Xtr ytr Xte yte).X_test_all.zip
      (load_dataset Xtr ytr Xte yte).y_test_all) ∧
  (∀ l ∈ (load_dataset Xtr ytr Xte yte).y_train, l = 0 ∨ l = 1) ∧
  (∀ l ∈ (load_dataset Xtr ytr Xte yte).y_test, l = 0 ∨ l = 1) ∧
  (∀ l ∈ (load_dataset Xtr ytr Xte yte).y_outside, ¬(l = 0 ∨ l = 1))

/-! ### Minibatch iterator (source lines 103-113)

`iterate_minibatches` asserts `len(inputs) == len(targets)` before its
loop; the loop yields the consecutive full-size batches and drops a
trailing partial batch.  (The `shuffle=True` path only permutes the
indices first; the assertion behaviour is identical, so the model takes
the order-preserving path.)  An assertion failure is modelled as
`Except.error ()`. -/

/-- The batches yielded by the loop `for start_idx in
range(0, len(inputs) - batchsize + 1, batchsize)` (source lines
108-113). -/
def makeBatches {α β : Type} (bs : ℕ) (xs : List α) (ys : List β) :
    List (List α × List β) :=
  if h : 0 < bs ∧ bs ≤ xs.length then
    (xs.take bs, ys.take bs) :: makeBatches bs (xs.drop bs) (ys.drop bs)
  else []
  termination_by xs.length
  decreasing_by simp only [List.length_drop]; omega

/-- The generator `iterate_minibatches` (source lines 103-113): the assert runs before
any batch is produced. -/
def iterate_minibatches {α β : Type} (xs : List α) (ys : List β) (bs : ℕ) :
    Except Unit (List (List α × List β)) :=
  if xs.length = ys.length then Except.ok (makeBatches bs xs ys)
  else Except.error ()

/-! ### Uncertainty-scoring loop (source lines 288-303)

Per test sample the loop appends one scalar to each of the four dicts
`test_pred_mean`, `test_pred_std`, `test_entropy_bayesian`,
`test_entropy_deterministic`, at the key `str(y_test_all[i])`.  The
dicts are initialised with exactly the keys '0'..'9', modelled as
`Fin 10 → List ℚ`. -/

/-- One test sample together with the four scalar statistics the loop
body computes for it. -/
structure ScoredSample where
  label : Fin 10
  predMean : ℚ
  predStd : ℚ
  entBayes : ℚ
  entDet : ℚ

/-- The append `record[str(label)].append(v)`. -/
def appendAt (r : Fin 10 → List ℚ) (l : Fin 10) (v : ℚ) : Fin 10 → List ℚ :=
  fun k => if k = l then r k ++ [v] else r k

/-- The four label-keyed dicts. -/
structure UncRecord where
  meanRec : Fin 10 → List ℚ
  stdRec : Fin 10 → List ℚ
  bayesRec : Fin 10 → List ℚ
  detRec : Fin 10 → List ℚ

/-- The body of the scoring loop (source lines 300-303). -/
def scoreStep (r : UncRecord) (s : ScoredSample) : UncRecord :=
  { meanRec := appendAt r.meanRec s.label s.predMean
    stdRec := appendAt r.stdRec s.label s.predStd
    bayesRec := appendAt r.bayesRec s.label s.entBayes
    detRec := appendAt r.detRec s.label s.entDet }

/-- The empty record the four dicts start from (source lines 288-291). -/
def emptyRecord : UncRecord :=
  ⟨fun _ => [], fun _ => [], fun _ => [], fun _ => []⟩

/-- The whole scoring loop over the full test set (source lines
294-303). -/
def scoreLoop (samples : List ScoredSample) : UncRecord :=
  samples.foldl scoreStep emptyRecord

/-! ### The scoring loop invariants (C10) -/

lemma appendAt_length (r : Fin 10 → List ℚ) (a l : Fin 10) (v : ℚ) :
    ((appendAt r a v) l).length = (r l).length + (if (a == l) = true then 1 else 0) := by
  by_cases h : l = a
  · subst h
    simp [appendAt]
  · have hba : (a == l) = false := by
      simp [beq_eq_false_iff_ne]
      exact fun hc => h hc.symm
    simp [appendAt, h, hba]

lemma foldl_scoreStep_lengths (samples : List ScoredSample) (r : UncRecord)
    (l : Fin 10) :
    ((samples.foldl scoreStep r).meanRec l).length =
      (r.meanRec l).length + samples.countP (fun s => s.label == l) ∧
    ((samples.foldl scoreStep r).stdRec l).length =
      (r.stdRec l).length + samples.countP (fun s => s.label == l) ∧
    ((samples.foldl scoreStep r).bayesRec l).length =
      (r.bayesRec l).length + samples.countP (fun s => s.label == l) ∧
    ((samples.foldl scoreStep r).detRec l).length =
      (r.detRec l).length + samples.countP (fun s => s.label == l) := by
  induction samples generalizing r with
  | nil => simp
  | cons s ss ih =>
    rw [List.foldl_cons]
    rcases ih (scoreStep r s) with ⟨h1, h2, h3, h4⟩
    rw [h1, h2, h3, h4]
    have hm : (scoreStep r s).meanRec = appendAt r.meanRec s.label s.predMean := rfl
    have hs : (scoreStep r s).stdRec = appendAt r.stdRec s.label s.predStd := rfl
    have hb : (scoreStep r s).bayesRec = appendAt r.bayesRec s.label s.entBayes := rfl
    have hd : (scoreStep r s).detRec = appendAt r.detRec s.label s.entDet := rfl
    rw [hm, hs, hb, hd, appendAt_length, appendAt_length, appendAt_length,
      appendAt_length, List.countP_cons]
    refine ⟨by omega, by omega, by omega, by omega⟩

lemma sum_countP_labels (samples : List ScoredSample) :
    (∑ l : Fin 10, samples.countP (fun s => s.label == l)) = samples.length := by
  induction samples with
  | nil => simp
  | cons s ss ih =>
    have hc : ∀ l : Fin 10, (s :: ss).countP (fun x => x.label == l) =
        ss.countP (fun x => x.label == l) +
          (if (s.label == l) = true then 1 else 0) := by
      intro l
      rw [List.countP_cons]
    simp only [hc]
    rw [Finset.sum_add_distrib, ih]
    have hone : (∑ l : Fin 10, if (s.label == l) = true then 1 else 0) = 1 := by
      simp only [beq_iff_eq]
      rw [Finset.sum_ite_eq]
      simp
    rw [hone]
    simp

/-- C10: after the scoring loop over the full test set, each of the
four statistic lists at each label key has the same length, equal to
the number of test samples bearing that label, and these lengths summed
over the ten keys equal the total number of test samples.  (The record
is keyed by exactly the ten labels by construction, `Fin 10`.) -/
theorem scoring_record_lengths (samples : List ScoredSample) :
    (∀ l : Fin 10,
      ((scoreLoop samples).meanRec l).length =
        samples.countP (fun s => s.label == l) ∧
      ((scoreLoop samples).stdRec l).length =
        samples.countP (fun s => s.label == l) ∧
      ((scoreLoop samples).bayesRec l).length =
        samples.countP (fun s => s.label == l) ∧
      ((scoreLoop samples).detRec l).length =
        samples.countP (fun s => s.label == l)) ∧
    (∑ l : Fin 10, ((scoreLoop samples).meanRec l).length) = samples.length := by
  have hlen : ∀ l : Fin 10,
      ((scoreLoop samples).meanRec l).length =
        samples.countP (fun s => s.label == l) ∧
      ((scoreLoop samples).stdRec l).length =
        samples.countP (fun s => s.label == l) ∧
      ((scoreLoop samples).bayesRec l).length =
        samples.countP (fun s => s.label == l) ∧
      ((scoreLoop samples).detRec l).length =
        samples.countP (fun s => s.label == l) := by
    intro l
    have h := foldl_scoreStep_lengths samples emptyRecord l
    simpa [scoreLoop, emptyRecord] using h
  refine ⟨hlen, ?_⟩
  have hsum : (∑ l : Fin 10, ((scoreLoop samples).meanRec l).length) =
      ∑ l : Fin 10, samples.countP (fun s => s.label == l) :=
    Finset.sum_congr rfl (fun l _ => (hlen l).1)
  rw [hsum, sum_countP_labels]

/-! ### Real-valued pieces: network forward passes, entropies, KL, clip

The architecture is fixed: 784 inputs, 512 hidden units, 2 outputs
(source lines 35-37).  Weight matrices are `Fin m → Fin n → ℝ`;
`T.dot(x, W) + b` becomes an explicit sum. -/

/-- The activation `T.nnet.relu`. -/
noncomputable def relu (x : ℝ) : ℝ := max x 0

/-- The activation `T.nnet.softmax`, one row. -/
noncomputable def softmax {n : ℕ} (v : Fin n → ℝ) : Fin n → ℝ :=
  fun i => Real.exp (v i) / ∑ j, Real.exp (v j)

/-- Theano `categorical_crossentropy(coding, target)` for one sample:
`-Σ target · log coding`. -/
noncomputable def categoricalCrossentropy {n : ℕ} (coding target : Fin n → ℝ) : ℝ :=
  -(∑ i, target i * Real.log (coding i))

/-- The self-entropy `−Σ p·log p` the spec speaks of. -/
noncomputable def selfEntropy {n : ℕ} (p : Fin n → ℝ) : ℝ :=
  -(∑ i, p i * Real.log (p i))

/-- The dropout network's deterministic forward pass
(`get_output(network, deterministic=True)`, source lines 127-142 and
190): dense ReLU hidden layer, dropout disabled (identity, thanks to
Lasagne's training-time rescaling), softmax output. -/
noncomputable def dropoutDetForward (W1 : Fin 784 → Fin 512 → ℝ) (b1 : Fin 512 → ℝ)
    (W2 : Fin 512 → Fin 2 → ℝ) (b2 : Fin 2 → ℝ) (x : Fin 784 → ℝ) : Fin 2 → ℝ :=
  softmax (fun k => (∑ j, relu ((∑ i, x i * W1 i j) + b1 j) * W2 j k) + b2 k)

/-- The variational network's deterministic forward pass (source lines
244-245): posterior means only, no noise. -/
noncomputable def variationalDetForward (W1mu : Fin 784 → Fin 512 → ℝ)
    (b1 : Fin 512 → ℝ) (W2mu : Fin 512 → Fin 2 → ℝ) (b2 : Fin 2 → ℝ)
    (x : Fin 784 → ℝ) : Fin 2 → ℝ :=
  softmax (fun k => (∑ j, relu ((∑ i, x i * W1mu i j) + b1 j) * W2mu j k) + b2 k)

/-- The dropout branch's classical-entropy function (source lines
190-192): the categorical cross-entropy of the deterministic prediction
against itself. -/
noncomputable def entropyClassicalDropout (W1 : Fin 784 → Fin 512 → ℝ)
    (b1 : Fin 512 → ℝ) (W2 : Fin 512 → Fin 2 → ℝ) (b2 : Fin 2 → ℝ)
    (x : Fin 784 → ℝ) : ℝ :=
  categoricalCrossentropy (dropoutDetForward W1 b1 W2 b2 x)
    (dropoutDetForward W1 b1 W2 b2 x)

/-- The variational branch's classical-entropy function (source line
253): `theano.function([input_var], 0.0*input_var.sum())`, commented
"Fake classical entropy" in the source. -/
noncomputable def entropyClassicalVariational (x : Fin 784 → ℝ) : ℝ :=
  0 * ∑ i, x i

/-- One entry of the realized weight of a variational stochastic forward
pass (source lines 218 and 222): `W_mu + T.exp(W_log_var) * rv`,
elementwise. -/
noncomputable def realizedWeight (mu lv noise : ℝ) : ℝ :=
  mu + Real.exp lv * noise

/-- The realized-weight formula as the claim words it: the multiplier of
the noise is `exp(log_variance / 2)`. -/
noncomputable def specRealizedWeight (mu lv noise : ℝ) : ℝ :=
  mu + Real.exp (lv / 2) * noise

/-- A KL term of the variational loss (source lines 231-232), over the
entries `(mu, log_var)` of one weight matrix:
`(1.0 + 2.0*log_var - mu**2.0 - T.exp(2.0*log_var)).sum()/2.0`. -/
noncomputable def dkl (entries : List (ℝ × ℝ)) : ℝ :=
  ((entries.map (fun e => 1 + 2 * e.2 - e.1 ^ 2 - Real.exp (2 * e.2))).sum) / 2

/-- Every weight entry has mean 0 and log-variance 0 (C7's hypothesis). -/
def allZeroEntries (entries : List (ℝ × ℝ)) : Prop :=
  ∀ e ∈ entries, e.1 = 0 ∧ e.2 = 0

/-- The clamp `T.clip(x, 0.000001, 0.999999)` (source line 235). -/
noncomputable def clip (x lo hi : ℝ) : ℝ := min (max x lo) hi

/-- One probability's contribution to the negative log-likelihood
(source line 235): the log is taken of the clipped probability. -/
noncomputable def nllTerm (p : ℝ) : ℝ :=
  -Real.log (clip p (1 / 1000000) (999999 / 1000000))

/-! ### Claims C2, C4, C7, C8, C9 -/

/-- C2, counterexample: the dropout variant's optimizer step (the
library momentum rule called at source line 177) does not follow the
claimed rule velocity ← momentum·velocity + (1−momentum)·gradient,
parameter ← parameter − learning_rate·velocity: at parameter 0,
velocity 0, gradient 1, learning rate 1/100 and momentum 9/10, the
library step moves the parameter by −1/100 while the claimed rule moves
it by −1/1000. -/
theorem momentum_rule_counterexample :
    lasagneMomentumStep (1 / 100) (9 / 10) (0, 0) 1 ≠
      specMomentumStep (1 / 100) (9 / 10) (0, 0) 1 := by
  norm_num [lasagneMomentumStep, specMomentumStep, Prod.ext_iff]

/-- C2, amended: the variational variant's custom `sgd` follows exactly
the claimed rule (velocity ← momentum·velocity + (1−momentum)·gradient;
parameter ← parameter − learning_rate·velocity), and its
parameter/velocity state is threaded across concatenated gradient
sequences (minibatches and epochs); the dropout variant instead uses
the library rule velocity ← momentum·velocity − learning_rate·gradient,
parameter ← parameter + velocity, which differs from the claimed
rule. -/
theorem momentum_rules :
    (∀ lr m pv g, sgdStep lr m pv g = specMomentumStep lr m pv g) ∧
    (∀ lr m pv gs gsB,
      sgdRun lr m pv (gs ++ gsB) = sgdRun lr m (sgdRun lr m pv gs) gsB) ∧
    (∃ lr m pv g, lasagneMomentumStep lr m pv g ≠ specMomentumStep lr m pv g) := by
  refine ⟨?_, ?_, ⟨1 / 100, 9 / 10, (0, 0), 1,
    by norm_num [lasagneMomentumStep, specMomentumStep, Prod.ext_iff]⟩⟩
  · intro lr m pv g
    simp only [sgdStep, specMomentumStep, Prod.mk.injEq]
    constructor <;> ring
  · intro lr m pv gs gsB
    simp [sgdRun, List.foldl_append]

/-- C4, counterexample: the realized weight of a stochastic variational
forward pass is `mean + exp(log_var)·noise` (source lines 218, 222),
not `mean + exp(log_var/2)·noise` as the claim words it: at mean 0,
log-variance parameter 2 and noise 1 the code produces `exp 2` while
the claim's formula gives `exp 1`. -/
theorem realized_weight_counterexample :
    realizedWeight 0 2 1 ≠ specRealizedWeight 0 2 1 := by
  simp only [realizedWeight, specRealizedWeight, zero_add, mul_one]
  norm_num [Real.exp_eq_exp]

/-- C4, amended: the realized weight equals mean + std·noise where std
is `exp(log_var)` — the square root of `exp(2·log_var)`, the variance
the KL term of the same code treats the posterior as having (source
lines 231-232) — not `exp(log_var/2)`; the parameter named log-variance
actually stores the log of the standard deviation. -/
theorem realized_weight_is_mean_plus_std_noise (mu lv noise : ℝ) :
    realizedWeight mu lv noise = mu + Real.sqrt (Real.exp (2 * lv)) * noise := by
  have h : Real.sqrt (Real.exp (2 * lv)) = Real.exp lv := by
    rw [show (2 : ℝ) * lv = lv + lv by ring, Real.exp_add,
      Real.sqrt_mul_self (Real.exp_nonneg lv)]
  rw [realizedWeight, h]

/-- C7: each KL term `Σ (1 + 2·log_var − mean² − exp(2·log_var)) / 2`
evaluates to exactly zero when every weight entry has mean 0 and
log-variance 0 (posterior equals the standard-normal prior). -/
theorem dkl_zero_at_standard_prior (entries : List (ℝ × ℝ))
    (h : allZeroEntries entries) : dkl entries = 0 := by
  have hz : (entries.map
      (fun e => 1 + 2 * e.2 - e.1 ^ 2 - Real.exp (2 * e.2))).sum = 0 := by
    apply List.sum_eq_zero
    intro x hx
    rcases List.mem_map.mp hx with ⟨e, he, rfl⟩
    rcases h e he with ⟨h1, h2⟩
    rw [h1, h2]
    norm_num [Real.exp_zero]
  rw [dkl, hz, zero_div]

/-- C7, witness: the KL term of a single weight entry (0, 0) is zero. -/
theorem dkl_zero_at_standard_prior_witness :
    allZeroEntries [((0 : ℝ), (0 : ℝ))] ∧ dkl [((0 : ℝ), (0 : ℝ))] = 0 :=
  ⟨by simp [allZeroEntries],
    dkl_zero_at_standard_prior [((0 : ℝ), (0 : ℝ))] (by simp [allZeroEntries])⟩

/-- C8: the probability passed to the logarithm of the variational NLL
is clipped into [1e-6, 1−1e-6], so the log argument is at least 1e-6
and each NLL contribution is bounded above by log(1e6) — the −∞ branch
is unreachable. -/
theorem nll_clip_bounds (p : ℝ) :
    1 / 1000000 ≤ clip p (1 / 1000000) (999999 / 1000000) ∧
    clip p (1 / 1000000) (999999 / 1000000) ≤ 999999 / 1000000 ∧
    nllTerm p ≤ Real.log 1000000 := by
  have hlo : (1 : ℝ) / 1000000 ≤ clip p (1 / 1000000) (999999 / 1000000) :=
    le_min (le_max_right _ _) (by norm_num)
  have hhi : clip p (1 / 1000000) (999999 / 1000000) ≤ 999999 / 1000000 :=
    min_le_right _ _
  refine ⟨hlo, hhi, ?_⟩
  have hpos : (0 : ℝ) < clip p (1 / 1000000) (999999 / 1000000) :=
    lt_of_lt_of_le (by norm_num) hlo
  have hlog : Real.log (1 / 1000000) ≤
      Real.log (clip p (1 / 1000000) (999999 / 1000000)) :=
    (Real.log_le_log_iff (by norm_num) hpos).mpr hlo
  have hinv : Real.log ((1 : ℝ) / 1000000) = -Real.log 1000000 := by
    rw [one_div, Real.log_inv]
  rw [nllTerm]
  linarith

/-! ### Bounds on the balanced accuracy (C6, also used for C3) -/

lemma fv0 : ((0 : Fin 10) : ℕ) = 0 := rfl
lemma fv1 : ((1 : Fin 10) : ℕ) = 1 := rfl
lemma fv2 : ((2 : Fin 10) : ℕ) = 2 := rfl
lemma fv3 : ((3 : Fin 10) : ℕ) = 3 := rfl
lemma fv4 : ((4 : Fin 10) : ℕ) = 4 := rfl
lemma fv5 : ((5 : Fin 10) : ℕ) = 5 := rfl
lemma fv6 : ((6 : Fin 10) : ℕ) = 6 := rfl
lemma fv7 : ((7 : Fin 10) : ℕ) = 7 := rfl
lemma fv8 : ((8 : Fin 10) : ℕ) = 8 := rfl
lemma fv9 : ((9 : Fin 10) : ℕ) = 9 := rfl

lemma sum_univ_ten (f : Fin 10 → ℚ) :
    ∑ i, f i = f 0 + f 1 + f 2 + f 3 + f 4 + f 5 + f 6 + f 7 + f 8 + f 9 := by
  rw [Fin.sum_univ_castSucc, Fin.sum_univ_castSucc, Fin.sum_univ_eight]
  rfl

lemma fracLt_nonneg (xs : List ℚ) (t : ℚ) : 0 ≤ fracLt xs t :=
  div_nonneg (Nat.cast_nonneg _) (Nat.cast_nonneg _)

lemma fracGe_nonneg (xs : List ℚ) (t : ℚ) : 0 ≤ fracGe xs t :=
  div_nonneg (Nat.cast_nonneg _) (Nat.cast_nonneg _)

lemma fracLt_le_one (xs : List ℚ) (t : ℚ) : fracLt xs t ≤ 1 :=
  div_le_one_of_le₀ (Nat.cast_le.mpr (List.length_filter_le _ _))
    (Nat.cast_nonneg _)

lemma fracGe_le_one (xs : List ℚ) (t : ℚ) : fracGe xs t ≤ 1 :=
  div_le_one_of_le₀ (Nat.cast_le.mpr (List.length_filter_le _ _))
    (Nat.cast_nonneg _)

lemma fracLt_eq_one (xs : List ℚ) (t : ℚ) (h : xs ≠ [])
    (hall : ∀ x ∈ xs, x < t) : fracLt xs t = 1 := by
  unfold fracLt
  rw [List.filter_eq_self.mpr (fun a ha => by simpa using hall a ha)]
  rw [div_self]
  exact_mod_cast (List.length_pos.mpr h).ne'

lemma fracGe_eq_one (xs : List ℚ) (t : ℚ) (h : xs ≠ [])
    (hall : ∀ x ∈ xs, t ≤ x) : fracGe xs t = 1 := by
  unfold fracGe
  rw [List.filter_eq_self.mpr (fun a ha => by simpa using hall a ha)]
  rw [div_self]
  exact_mod_cast (List.length_pos.mpr h).ne'

lemma inAcc_nonneg (r : Fin 10 → List ℚ) (t : ℚ) : 0 ≤ inAcc r t := by
  unfold inAcc
  apply div_nonneg _ (by norm_num)
  apply Finset.sum_nonneg
  intro i _
  by_cases hi : i.val ≤ 1 <;> simp [hi, fracLt_nonneg]

lemma outAcc_nonneg (r : Fin 10 → List ℚ) (t : ℚ) : 0 ≤ outAcc r t := by
  unfold outAcc
  apply div_nonneg _ (by norm_num)
  apply Finset.sum_nonneg
  intro i _
  by_cases hi : i.val ≤ 1 <;> simp [hi, fracGe_nonneg]

lemma inAcc_le_one (r : Fin 10 → List ℚ) (t : ℚ) : inAcc r t ≤ 1 := by
  unfold inAcc
  rw [div_le_one (by norm_num : (0 : ℚ) < 2)]
  calc (∑ l : Fin 10, if l.val ≤ 1 then fracLt (r l) t else 0)
      ≤ ∑ l : Fin 10, if l.val ≤ 1 then (1 : ℚ) else 0 := by
        apply Finset.sum_le_sum
        intro i _
        by_cases hi : i.val ≤ 1 <;> simp [hi, fracLt_le_one]
    _ = 2 := by
        rw [sum_univ_ten]
        norm_num [fv0, fv1, fv2, fv3, fv4, fv5, fv6, fv7, fv8, fv9]

lemma outAcc_le_one (r : Fin 10 → List ℚ) (t : ℚ) : outAcc r t ≤ 1 := by
  unfold outAcc
  rw [div_le_one (by norm_num : (0 : ℚ) < 8)]
  calc (∑ l : Fin 10, if l.val ≤ 1 then 0 else fracGe (r l) t)
      ≤ ∑ l : Fin 10, if l.val ≤ 1 then 0 else (1 : ℚ) := by
        apply Finset.sum_le_sum
        intro i _
        by_cases hi : i.val ≤ 1 <;> simp [hi, fracGe_le_one]
    _ = 8 := by
        rw [sum_univ_ten]
        norm_num [fv0, fv1, fv2, fv3, fv4, fv5, fv6, fv7, fv8, fv9]

lemma balAcc_nonneg (r : Fin 10 → List ℚ) (t : ℚ) : 0 ≤ balAcc r t := by
  have h1 := inAcc_nonneg r t
  have h2 := outAcc_nonneg r t
  unfold balAcc
  linarith

lemma balAcc_le_one (r : Fin 10 → List ℚ) (t : ℚ) : balAcc r t ≤ 1 := by
  have h1 := inAcc_le_one r t
  have h2 := outAcc_le_one r t
  unfold balAcc
  linarith

/-- C6: for every uncertainty record (with at least one recorded score
per label, as the real record has) and every threshold of the sweep,
the balanced accuracy `(in_acc/2 + out_acc/8)/2`-style combination
computed by the code lies in [0, 1]. -/
theorem balanced_accuracy_in_unit_interval (r : Fin 10 → List ℚ) (t : ℚ)
    (h : allNonempty r) : 0 ≤ balAcc r t ∧ balAcc r t ≤ 1 :=
  ⟨balAcc_nonneg r t, balAcc_le_one r t⟩

/-- C6, witness: the record whose every label recorded the single score
1/2, at threshold 1/3. -/
theorem balanced_accuracy_in_unit_interval_witness :
    allNonempty (fun _ => [1 / 2]) ∧
    (0 ≤ balAcc (fun _ => [1 / 2]) (1 / 3) ∧
      balAcc (fun _ => [1 / 2]) (1 / 3) ≤ 1) :=
  ⟨fun _ => by simp,
    balanced_accuracy_in_unit_interval _ _ (fun _ => by simp)⟩

/-! ### The dataset partitioner (C5) -/

lemma selectRows_zip {α : Type} (xs : List α) (ys : List ℕ) (f : ℕ → Bool)
    (h : xs.length = ys.length) :
    (selectRows xs (ys.map f)).zip (selectRows ys (ys.map f)) =
      (xs.zip ys).filter (fun p => f p.2) := by
  induction xs generalizing ys with
  | nil => simp [selectRows]
  | cons x xs ih =>
    cases ys with
    | nil => simp at h
    | cons y ys =>
      have hlen : xs.length = ys.length := by simpa using h
      by_cases hf : f y
      · simp [selectRows, List.filterMap_cons, hf, List.filter_cons]
        exact ih ys hlen
      · simp [selectRows, List.filterMap_cons, hf, List.filter_cons]
        exact ih ys hlen

lemma mem_selectRows_self (ys : List ℕ) (f : ℕ → Bool) (l : ℕ)
    (h : l ∈ selectRows ys (ys.map f)) : f l = true := by
  induction ys with
  | nil => simp [selectRows] at h
  | cons y ys ih =>
    by_cases hf : f y
    · simp only [selectRows, List.map_cons, List.zip_cons_cons,
        List.filterMap_cons, hf, if_pos] at h
      rcases List.mem_cons.mp h with rfl | hmem
      · exact hf
      · exact ih hmem
    · simp only [selectRows, List.map_cons, List.zip_cons_cons,
        List.filterMap_cons, hf, if_neg, Bool.false_eq_true,
        not_false_iff] at h
      exact ih h

/-- C5: for every raw (images, labels) train and test source with
parallel arrays, the partitioner's outputs satisfy all the properties
of `partitionProps`: in-train ++ out-train is a permutation of the
original train set, each filtered subset preserves row correspondence
and original order (is a sublist of the zipped source), in-test is a
sublist of full-test, in-train and in-test carry only labels 0 or 1,
and out-train carries no label 0 or 1. -/
theorem dataset_partition (α : Type) (Xtr : List α) (ytr : List ℕ)
    (Xte : List α) (yte : List ℕ) (htr : Xtr.length = ytr.length)
    (hte : Xte.length = yte.length) : partitionProps Xtr ytr Xte yte := by
  have hzin : ((load_dataset Xtr ytr Xte yte).X_train.zip
      (load_dataset Xtr ytr Xte yte).y_train) =
      (Xtr.zip ytr).filter (fun p => p.2 == 0 || p.2 == 1) :=
    selectRows_zip Xtr ytr _ htr
  have hzout : ((load_dataset Xtr ytr Xte yte).X_outside.zip
      (load_dataset Xtr ytr Xte yte).y_outside) =
      (Xtr.zip ytr).filter (fun p => !(p.2 == 0) && !(p.2 == 1)) :=
    selectRows_zip Xtr ytr _ htr
  have hzte : ((load_dataset Xtr ytr Xte yte).X_test.zip
      (load_dataset Xtr ytr Xte yte).y_test) =
      (Xte.zip yte).filter (fun p => p.2 == 0 || p.2 == 1) :=
    selectRows_zip Xte yte _ hte
  have hneg : ∀ p : α × ℕ,
      (!(p.2 == 0) && !(p.2 == 1)) = !(p.2 == 0 || p.2 == 1) :=
    fun p => (Bool.not_or _ _).symm
  refine ⟨?_, ?_, ?_, ?_, ?_, ?_, ?_⟩
  · rw [hzin, hzout]
    have hco : (Xtr.zip ytr).filter (fun p => !(p.2 == 0) && !(p.2 == 1)) =
        (Xtr.zip ytr).filter (fun p => !(p.2 == 0 || p.2 == 1)) :=
      List.filter_congr (fun a _ => hneg a)
    rw [hco]
    exact List.filter_append_perm _ _
  · rw [hzin]
    exact List.filter_sublist _
  · rw [hzout]
    exact List.filter_sublist _
  · rw [hzte]
    exact List.filter_sublist _
  · intro l hl
    have hf := mem_selectRows_self ytr _ l hl
    simpa using hf
  · intro l hl
    have hf := mem_selectRows_self yte _ l hl
    simpa using hf
  · intro l hl
    have hf := mem_selectRows_self ytr _ l hl
    simp at hf
    simpa using hf

/-- C5, witness: a train source of three images with labels 0, 5, 1 and
a test source of two images with labels 2, 1. -/
theorem dataset_partition_witness :
    ([10, 20, 30] : List ℕ).length = ([0, 5, 1] : List ℕ).length ∧
    ([7, 8] : List ℕ).length = ([2, 1] : List ℕ).length ∧
    partitionProps [10, 20, 30] [0, 5, 1] [7, 8] [2, 1] :=
  ⟨rfl, rfl, dataset_partition ℕ [10, 20, 30] [0, 5, 1] [7, 8] [2, 1] rfl rfl⟩

/-! ### The threshold selection (C3) -/

lemma foldl_better_le (l : List (ℚ × ℚ)) (b : ℚ × ℚ) (c : ℚ)
    (hb : b.2 ≤ c) (hl : ∀ x ∈ l, x.2 ≤ c) : (l.foldl better b).2 ≤ c := by
  induction l generalizing b with
  | nil => simpa using hb
  | cons x xs ih =>
    rw [List.foldl_cons]
    apply ih
    · unfold better
      split
      · exact hl x (by simp)
      · exact hb
    · intro y hy
      exact hl y (List.mem_cons_of_mem _ hy)

lemma foldl_better_ge_init (l : List (ℚ × ℚ)) (b : ℚ × ℚ) :
    b.2 ≤ (l.foldl better b).2 := by
  induction l generalizing b with
  | nil => simp
  | cons x xs ih =>
    rw [List.foldl_cons]
    refine le_trans ?_ (ih (better b x))
    unfold better
    split
    · exact le_of_lt (by assumption)
    · exact le_refl _

lemma foldl_better_ge_mem (l : List (ℚ × ℚ)) (b : ℚ × ℚ) (x : ℚ × ℚ)
    (hx : x ∈ l) : x.2 ≤ (l.foldl better b).2 := by
  induction l generalizing b with
  | nil => cases hx
  | cons y ys ih =>
    rw [List.foldl_cons]
    rcases List.mem_cons.mp hx with rfl | h
    · refine le_trans ?_ (foldl_better_ge_init ys (better b x))
      unfold better
      split
      · exact le_refl _
      · exact le_of_not_lt (by assumption)
    · exact ih (better b y) h

lemma foldl_better_fix (l : List (ℚ × ℚ)) (b : ℚ × ℚ)
    (h : ∀ x ∈ l, x.2 ≤ b.2) : l.foldl better b = b := by
  induction l with
  | nil => rfl
  | cons x xs ih =>
    rw [List.foldl_cons]
    have hbx : better b x = b := by
      unfold better
      rw [if_neg (not_lt.mpr (h x (by simp)))]
    rw [hbx]
    exact ih (fun y hy => h y (List.mem_cons_of_mem _ hy))

lemma selectBest_cons (e : ℚ × ℚ) (rest : List (ℚ × ℚ)) :
    selectBest (e :: rest) = some (rest.foldl better e) := rfl

lemma selectBest_snd_eq (l : List (ℚ × ℚ)) (c : ℚ)
    (hex : ∃ x ∈ l, x.2 = c) (hall : ∀ x ∈ l, x.2 ≤ c) :
    (selectBest l).map Prod.snd = some c := by
  match l with
  | [] =>
    rcases hex with ⟨x, hx, _⟩
    cases hx
  | e :: rest =>
    show some (rest.foldl better e).2 = some c
    congr 1
    apply le_antisymm
    · exact foldl_better_le rest e c (hall e (by simp))
        (fun x hx => hall x (List.mem_cons_of_mem _ hx))
    · rcases hex with ⟨x, hx, hc⟩
      rcases List.mem_cons.mp hx with rfl | hmem
      · exact hc ▸ foldl_better_ge_init rest x
      · exact hc ▸ foldl_better_ge_mem rest e x hmem

lemma fracLt_eq_zero (xs : List ℚ) (t : ℚ) (h : ∀ x ∈ xs, ¬x < t) :
    fracLt xs t = 0 := by
  unfold fracLt
  rw [List.filter_eq_nil_iff.mpr (fun a ha => by simpa using h a ha)]
  simp

lemma inAcc_eq_one (r : Fin 10 → List ℚ) (t : ℚ) (hne : allNonempty r)
    (hin : ∀ l : Fin 10, l.val ≤ 1 → ∀ x ∈ r l, x < t) : inAcc r t = 1 := by
  unfold inAcc
  have hs : (∑ l : Fin 10, if l.val ≤ 1 then fracLt (r l) t else 0) =
      ∑ l : Fin 10, if l.val ≤ 1 then (1 : ℚ) else 0 := by
    apply Finset.sum_congr rfl
    intro i _
    by_cases hi : i.val ≤ 1
    · simp only [if_pos hi]
      exact fracLt_eq_one _ _ (hne i) (hin i hi)
    · simp [hi]
  rw [hs, sum_univ_ten]
  norm_num [fv0, fv1, fv2, fv3, fv4, fv5, fv6, fv7, fv8, fv9]

lemma outAcc_eq_one (r : Fin 10 → List ℚ) (t : ℚ) (hne : allNonempty r)
    (hout : ∀ l : Fin 10, ¬l.val ≤ 1 → ∀ x ∈ r l, t ≤ x) : outAcc r t = 1 := by
  unfold outAcc
  have hs : (∑ l : Fin 10, if l.val ≤ 1 then 0 else fracGe (r l) t) =
      ∑ l : Fin 10, if l.val ≤ 1 then 0 else (1 : ℚ) := by
    apply Finset.sum_congr rfl
    intro i _
    by_cases hi : i.val ≤ 1
    · simp [hi]
    · simp only [if_neg hi]
      exact fracGe_eq_one _ _ (hne i) (hout i hi)
  rw [hs, sum_univ_ten]
  norm_num [fv0, fv1, fv2, fv3, fv4, fv5, fv6, fv7, fv8, fv9]

lemma balAcc_eq_one (r : Fin 10 → List ℚ) (t : ℚ) (hne : allNonempty r)
    (hin : ∀ l : Fin 10, l.val ≤ 1 → ∀ x ∈ r l, x < t)
    (hout : ∀ l : Fin 10, ¬l.val ≤ 1 → ∀ x ∈ r l, t ≤ x) : balAcc r t = 1 := by
  unfold balAcc
  rw [inAcc_eq_one r t hne hin, outAcc_eq_one r t hne hout]
  norm_num

lemma exampleRecord_nonempty : allNonempty exampleRecord := by
  intro l
  unfold exampleRecord
  split <;> simp

lemma exampleRecord_sep : sepHypothesis exampleRecord := by
  intro l
  constructor
  · intro hl x hx
    rw [exampleRecord, if_pos hl] at hx
    simp at hx
    rw [hx]
    norm_num
  · intro hl x hx
    rw [exampleRecord, if_neg (by omega)] at hx
    simp at hx
    rw [hx]
    norm_num

/-- C3, amended: for every uncertainty record with at least one
recorded score per label in which every label-0/1 score is below 0.1
and every label-2..9 score is above 0.9, the threshold sweep (1000
evenly spaced thresholds in [0,1], first maximal balanced accuracy
after a stable descending sort) selects a threshold whose balanced
accuracy equals 1.0.  (The selected threshold is the smallest sweep
point exceeding every in-distribution score and can lie below 0.1, so
it need not lie in [0.1, 0.9].) -/
theorem sweep_selects_perfect_threshold (r : Fin 10 → List ℚ)
    (hsep : sepHypothesis r) (hne : allNonempty r) :
    (selectBest (sweepRecord r)).map Prod.snd = some 1 := by
  apply selectBest_snd_eq
  · have h100 : (100 : ℕ) ∈ List.range 1000 := List.mem_range.mpr (by norm_num)
    have ht : ((100 : ℕ) : ℚ) / 999 ∈ thresholds1000 := by
      rw [thresholds1000]
      exact List.mem_map_of_mem _ h100
    refine ⟨(((100 : ℕ) : ℚ) / 999, balAcc r (((100 : ℕ) : ℚ) / 999)),
      List.mem_map_of_mem _ ht, ?_⟩
    apply balAcc_eq_one r _ hne
    · intro l hl x hx
      have hx10 : x < 1 / 10 := (hsep l).1 hl x hx
      have : (1 : ℚ) / 10 < ((100 : ℕ) : ℚ) / 999 := by push_cast; norm_num
      linarith
    · intro l hl x hx
      have hx910 : 9 / 10 < x := (hsep l).2 (by omega) x hx
      have : ((100 : ℕ) : ℚ) / 999 ≤ 9 / 10 := by push_cast; norm_num
      linarith
  · intro x hx
    rcases List.mem_map.mp hx with ⟨t, _, rfl⟩
    exact balAcc_le_one r t

/-- C3, witness: the record recording score 0 for the labels 0 and 1
and score 0.95 for the labels 2..9 satisfies the hypotheses, and the
sweep on it selects an entry of balanced accuracy 1. -/
theorem sweep_selects_perfect_threshold_witness :
    sepHypothesis exampleRecord ∧ allNonempty exampleRecord ∧
      (selectBest (sweepRecord exampleRecord)).map Prod.snd = some 1 :=
  ⟨exampleRecord_sep, exampleRecord_nonempty,
    sweep_selects_perfect_threshold exampleRecord exampleRecord_sep
      exampleRecord_nonempty⟩

/-- C3, counterexample: on the record recording score 0 for the labels
0 and 1 and score 0.95 for the labels 2..9 — which satisfies the
claim's hypothesis — the sweep selects the threshold 1/999 ≈ 0.001
(with balanced accuracy 1.0), and 1/999 does not lie in [0.1, 0.9]. -/
theorem sweep_threshold_counterexample :
    sepHypothesis exampleRecord ∧
    selectBest (sweepRecord exampleRecord) = some (1 / 999, 1) ∧
    ¬(1 / 10 ≤ (1 : ℚ) / 999) := by
  refine ⟨exampleRecord_sep, ?_, by norm_num⟩
  have h1 : List.range 1000 = 0 :: (List.range 999).map Nat.succ :=
    List.range_succ_eq_map 999
  have h2 : List.range 999 = 0 :: (List.range 998).map Nat.succ :=
    List.range_succ_eq_map 998
  rw [h2] at h1
  have hb1 : balAcc exampleRecord (1 / 999) = 1 := by
    apply balAcc_eq_one _ _ exampleRecord_nonempty
    · intro l hl x hx
      rw [exampleRecord, if_pos hl] at hx
      simp at hx
      rw [hx]
      norm_num
    · intro l hl x hx
      rw [exampleRecord, if_neg hl] at hx
      simp at hx
      rw [hx]
      norm_num
  have hb0 : balAcc exampleRecord 0 < 1 := by
    have hin0 : inAcc exampleRecord 0 = 0 := by
      unfold inAcc
      rw [Finset.sum_eq_zero]
      · norm_num
      · intro i _
        by_cases hi : i.val ≤ 1
        · simp only [if_pos hi]
          apply fracLt_eq_zero
          intro x hx
          rw [exampleRecord, if_pos hi] at hx
          simp at hx
          rw [hx]
          norm_num
        · simp [hi]
    have hout0 := outAcc_le_one exampleRecord 0
    unfold balAcc
    rw [hin0]
    linarith
  rw [sweepRecord, thresholds1000, h1]
  simp only [List.map_cons, List.map_map]
  rw [selectBest_cons, List.foldl_cons]
  have hcast0 : ((0 : ℕ) : ℚ) / 999 = 0 := by norm_num
  have hcast1 : ((Nat.succ 0 : ℕ) : ℚ) / 999 = 1 / 999 := by norm_num
  rw [hcast0, hcast1]
  have hstep : better (0, balAcc exampleRecord 0)
      (1 / 999, balAcc exampleRecord (1 / 999)) =
      (1 / 999, balAcc exampleRecord (1 / 999)) := by
    unfold better
    rw [if_pos]
    rw [hb1]
    exact hb0
  rw [hstep]
  rw [foldl_better_fix]
  · rw [hb1]
  · intro x hx
    simp only [List.mem_map, Function.comp] at hx
    rcases hx with ⟨n, _, rfl⟩
    rw [hb1]
    exact balAcc_le_one exampleRecord _

/-- C9: `iterate_minibatches` fails fast (assertion failure, before any
batch is produced) exactly when the inputs and targets have different
lengths; with equal lengths no error is raised. -/
theorem minibatch_assert_iff (α β : Type) (xs : List α) (ys : List β) (bs : ℕ) :
    (iterate_minibatches xs ys bs = Except.error ()) ↔
      xs.length ≠ ys.length := by
  unfold iterate_minibatches
  by_cases h : xs.length = ys.length <;> simp [h]

/-! ### Classical entropy in the two modes (C1) -/

lemma softmax_two_pos (v : Fin 2 → ℝ) (i : Fin 2) : 0 < softmax v i := by
  unfold softmax
  apply div_pos (Real.exp_pos _)
  rw [Fin.sum_univ_two]
  positivity

lemma softmax_two_lt_one (v : Fin 2 → ℝ) (i : Fin 2) : softmax v i < 1 := by
  have hpos : (0 : ℝ) < ∑ j, Real.exp (v j) := by
    rw [Fin.sum_univ_two]
    positivity
  unfold softmax
  rw [div_lt_one hpos, Fin.sum_univ_two]
  fin_cases i
  · have := Real.exp_pos (v 1)
    simp only [Fin.zero_eta]
    linarith
  · have := Real.exp_pos (v 0)
    simp only [Fin.mk_one]
    linarith

lemma selfEntropy_softmax_two_pos (v : Fin 2 → ℝ) :
    0 < selfEntropy (softmax v) := by
  unfold selfEntropy
  rw [Fin.sum_univ_two]
  have h0 := softmax_two_pos v 0
  have h1 := softmax_two_pos v 1
  have l0 : Real.log (softmax v 0) < 0 :=
    Real.log_neg h0 (softmax_two_lt_one v 0)
  have l1 : Real.log (softmax v 1) < 0 :=
    Real.log_neg h1 (softmax_two_lt_one v 1)
  have m0 : softmax v 0 * Real.log (softmax v 0) < 0 :=
    mul_neg_of_pos_of_neg h0 l0
  have m1 : softmax v 1 * Real.log (softmax v 1) < 0 :=
    mul_neg_of_pos_of_neg h1 l1
  linarith

/-- C1, counterexample: in variational mode the classical-entropy
function does not return the self-entropy of the deterministic forward
pass: on the all-zero image with all-zero parameters (any parameters
would do) the function returns 0 while the deterministic pass produces
a softmax vector, whose self-entropy is strictly positive. -/
theorem classical_entropy_variational_counterexample :
    entropyClassicalVariational (fun _ => 0) ≠
      selfEntropy (variationalDetForward (fun _ _ => 0) (fun _ => 0)
        (fun _ _ => 0) (fun _ => 0) (fun _ => 0)) := by
  have h0 : entropyClassicalVariational (fun _ => 0) = 0 := by
    rw [entropyClassicalVariational, zero_mul]
  have hpos : 0 < selfEntropy (variationalDetForward (fun _ _ => 0)
      (fun _ => 0) (fun _ _ => 0) (fun _ => 0) (fun _ => 0)) := by
    unfold variationalDetForward
    exact selfEntropy_softmax_two_pos _
  rw [h0]
  exact ne_of_lt hpos

/-- C1, amended: in dropout mode the classical-entropy function returns
the self-entropy −Σ p·log p of the probability vector of the single
deterministic forward pass (dropout disabled); in variational mode it
does not — it is the fake placeholder `0.0 * input.sum()`, identically
zero for every input image (while the deterministic pass based on the
posterior means always has strictly positive self-entropy). -/
theorem classical_entropy_modes :
    (∀ (W1 : Fin 784 → Fin 512 → ℝ) (b1 : Fin 512 → ℝ)
      (W2 : Fin 512 → Fin 2 → ℝ) (b2 : Fin 2 → ℝ) (x : Fin 784 → ℝ),
      entropyClassicalDropout W1 b1 W2 b2 x =
        selfEntropy (dropoutDetForward W1 b1 W2 b2 x)) ∧
    (∀ x : Fin 784 → ℝ, entropyClassicalVariational x = 0) ∧
    (∀ (W1mu : Fin 784 → Fin 512 → ℝ) (b1 : Fin 512 → ℝ)
      (W2mu : Fin 512 → Fin 2 → ℝ) (b2 : Fin 2 → ℝ) (x : Fin 784 → ℝ),
      0 < selfEntropy (variationalDetForward W1mu b1 W2mu b2 x)) := by
  refine ⟨?_, ?_, ?_⟩
  · intro W1 b1 W2 b2 x
    rfl
  · intro x
    rw [entropyClassicalVariational, zero_mul]
  · intro W1mu b1 W2mu b2 x
    unfold variationalDetForward
    exact selfEntropy_softmax_two_pos _

end MnistUncertainty
